import Mathlib

/-!
# Verification of the PaongDev archive deployment pipeline

Shallow embedding of the deploy backend (src/index.js): the input sanitizer
`sanitizeInput`, the archive reader (extraction loop over zip entries), and
the sequential repository publisher inside `handleDeployRequest`, together
with theorems settling the specification claims.

External collaborators (the zip library, the remote hosting API, multipart
parsing) are modelled at the interface level the core depends on: a blob is
represented by the outcome of loading it (parse error or entry list), and
the remote create-or-update operation by an oracle mapping each call to its
result.
-/

/-! ## Sanitizer: the regex tag stripper

`sanitizeInput` in src/index.js line 63 applies the global replacement
`value.replace(pattern, "")` where the pattern matches a literal `<`, an
optional `/`, one or more characters other than `>`, and then either a
literal `>` or the end of the input.  The matcher below embeds that
pattern; `stripTags` embeds the left-to-right global replace with the
empty string. -/

/-- Consume characters up to and including the first `>` (or everything, if
no `>` remains); returns the consumed part and the remainder.  This is the
greedy run of the character class excluding `>` followed by the closing
alternative of the pattern. -/
def skipToGt : List Char → List Char × List Char
  | [] => ([], [])
  | c :: rest =>
    if c = '>' then ([c], rest)
    else
      let p := skipToGt rest
      (c :: p.1, p.2)

/-- The sub-pattern: one or more characters other than `>`, then `>` or end
of input.  Returns the consumed part and the remainder, or `none` when the
sub-pattern cannot match here. -/
def matchPlus : List Char → Option (List Char × List Char)
  | [] => none
  | c :: rest =>
    if c = '>' then none
    else
      let p := skipToGt rest
      some (c :: p.1, p.2)

/-- The pattern after the leading `<`: an optional `/` (tried greedily
first, with backtracking) followed by `matchPlus`. -/
def matchAfterLt (l : List Char) : Option (List Char × List Char) :=
  match l with
  | [] => none
  | c :: rest =>
    if c = '/' then
      match matchPlus rest with
      | some p => some ('/' :: p.1, p.2)
      | none => matchPlus (c :: rest)
    else matchPlus (c :: rest)

/-- A full pattern match attempt at the current position: succeeds exactly
when the text starts with `<` and the rest of the pattern matches; returns
the matched segment and the remainder of the input. -/
def tagMatchAt : List Char → Option (List Char × List Char)
  | [] => none
  | c :: rest =>
    if c = '<' then
      match matchAfterLt rest with
      | some p => some ('<' :: p.1, p.2)
      | none => none
    else none

/-- Fueled left-to-right global replace of every pattern match with the
empty string: at each position, if the pattern matches, drop the matched
segment and continue after it; otherwise keep the character and move on.
The fuel argument only forces structural termination; `stripTags` always
supplies enough fuel. -/
def stripTagsAux : Nat → List Char → List Char
  | 0, l => l
  | _, [] => []
  | fuel + 1, c :: rest =>
    match tagMatchAt (c :: rest) with
    | some p => stripTagsAux fuel p.2
    | none => c :: stripTagsAux fuel rest

/-- The embedded global replacement: `s.replace(tagPattern, "")`. -/
def stripTags (l : List Char) : List Char :=
  stripTagsAux l.length l

/-- Whether some position of the text carries a pattern match. -/
def hasTag : List Char → Bool
  | [] => false
  | c :: rest => (tagMatchAt (c :: rest)).isSome || hasTag rest

/-- String-level sanitization of one field value. -/
def sanitizeStr (s : String) : String :=
  String.mk (stripTags s.data)

/-- src/index.js lines 58-68: build a new mapping with every value coerced
to text and stripped of tag matches.  Field mappings are modelled as
association lists of already-stringified values. -/
def sanitizeInput (fields : List (String × String)) : List (String × String) :=
  fields.map fun p => (p.1, sanitizeStr p.2)

/-! ## Archive, publish call and event model

The zip library and the remote hosting client are boundary collaborators;
they are embedded at the interface level used by src/index.js lines
117-152: an uploaded blob is represented by the result of loading it
(either a parse failure message or the list of container entries), and the
remote create-or-update operation by an oracle from calls to results. -/

/-- One record of the archive container: relative path, directory flag and
decoded text content. -/
structure ZipEntry where
  relativePath : String
  dir : Bool
  content : String
deriving DecidableEq, Repr

/-- One extracted file entry: relative path and text content
(src/index.js lines 126-129). -/
structure ArchiveEntry where
  path : String
  content : String
deriving DecidableEq, Repr

/-- src/index.js lines 122-134: iterate over the loaded container and, for
every non-directory record, produce one entry carrying the relative path
and the decoded content; directory records produce nothing.  The push
order of the loop and the order-preservation of awaiting all promises make
this exactly a filterMap in enumeration order. -/
def extractedFiles (entries : List ZipEntry) : List ArchiveEntry :=
  entries.filterMap fun ze =>
    if ze.dir then none
    else some { path := ze.relativePath, content := ze.content }

/-- UTF-8 encoding of one character as byte values, as performed by
Buffer.from on a JavaScript string (src/index.js line 142). -/
def utf8Bytes (c : Char) : List Nat :=
  let n := c.toNat
  if n < 128 then [n]
  else if n < 2048 then [192 + n / 64, 128 + n % 64]
  else if n < 65536 then [224 + n / 4096, 128 + (n / 64) % 64, 128 + n % 64]
  else [240 + n / 262144, 128 + (n / 4096) % 64, 128 + (n / 64) % 64, 128 + n % 64]

/-- The base64 alphabet. -/
def base64Table : List Char :=
  "ABCDEFGHIJKLMNOPQRSTUVWXYZabcdefghijklmnopqrstuvwxyz0123456789+/".data

/-- The base64 digit for a 6-bit value. -/
def b64Char (n : Nat) : Char :=
  base64Table.getD n 'A'

/-- Standard base64 encoding with padding over byte values, as performed by
toString on a Buffer (src/index.js line 142). -/
def base64Encode : List Nat → List Char
  | [] => []
  | [a] => [b64Char (a / 4), b64Char (a % 4 * 16), '=', '=']
  | [a, b] => [b64Char (a / 4), b64Char (a % 4 * 16 + b / 16), b64Char (b % 16 * 4), '=']
  | a :: b :: c :: rest =>
    b64Char (a / 4) :: b64Char (a % 4 * 16 + b / 16) ::
      b64Char (b % 16 * 4 + c / 64) :: b64Char (c % 64) :: base64Encode rest

/-- Base64 of the UTF-8 bytes of a string:
Buffer.from(content).toString, base64 variant (src/index.js line 142). -/
def base64EncodeStr (s : String) : String :=
  String.mk (base64Encode (s.data.map utf8Bytes).flatten)

/-- The argument record of one remote create-or-update call
(src/index.js lines 137-151). -/
structure PublishCall where
  owner : String
  repo : String
  path : String
  message : String
  content : String
  committerName : String
  committerEmail : String
  authorName : String
  authorEmail : String
deriving DecidableEq, Repr

/-- src/index.js lines 137-151: the call issued for one extracted file. -/
def mkPublishCall (username repoName : String) (file : ArchiveEntry) : PublishCall :=
  { owner := username
    repo := repoName
    path := file.path
    message := "Menambahkan file " ++ file.path ++ " via PaongDev"
    content := base64EncodeStr file.content
    committerName := "PaongDev"
    committerEmail := "paongdev@example.com"
    authorName := "PaongDev"
    authorEmail := "paongdev@example.com" }

deriving instance DecidableEq for Except

/-- Observable events of one request, in the order they happen: completion
of decompression, issuing of a remote call, resolution of a remote call.
The only remote operations the routine ever performs are create-or-update
calls; no deleting or reverting operation exists in the event alphabet. -/
inductive Event where
  | zipLoadOk (entries : List ZipEntry)
  | callIssued (call : PublishCall)
  | callResolved (call : PublishCall) (result : Except String Unit)
deriving DecidableEq, Repr

/-- The calls issued in a trace, in order. -/
def issuedCalls (evs : List Event) : List PublishCall :=
  evs.filterMap fun ev =>
    match ev with
    | Event.callIssued c => some c
    | _ => none

/-- The calls that resolved successfully in a trace, in order. -/
def resolvedOkCalls (evs : List Event) : List PublishCall :=
  evs.filterMap fun ev =>
    match ev with
    | Event.callResolved c (Except.ok _) => some c
    | _ => none

/-- Strict sequentiality of a publish trace: calls come as adjacent
issue/resolve pairs about the same call, so a later call is never issued
before the previous call has resolved. -/
def seqAlternating : List Event → Bool
  | [] => true
  | Event.callIssued c :: Event.callResolved c' _ :: rest =>
    decide (c = c') && seqAlternating rest
  | _ => false

/-- src/index.js lines 136-152: the sequential publish loop.  Each entry
in turn is turned into a call, the call is issued and awaited; an error
result aborts the loop immediately and is rethrown, a success continues
with the next entry.  Returns the event trace and the loop outcome. -/
def publishLoop (outcome : PublishCall → Except String Unit) (u r : String) :
    List ArchiveEntry → List Event × Except String Unit
  | [] => ([], Except.ok ())
  | e :: rest =>
    let c := mkPublishCall u r e
    match outcome c with
    | Except.error msg =>
      ([Event.callIssued c, Event.callResolved c (Except.error msg)], Except.error msg)
    | Except.ok _ =>
      let p := publishLoop outcome u r rest
      (Event.callIssued c :: Event.callResolved c (Except.ok ()) :: p.1, p.2)

/-- An HTTP response: status code and body text. -/
structure Response where
  status : Nat
  body : String
deriving DecidableEq, Repr

/-- A parsed multipart deploy request.  `fields` is the parsed text-field
mapping; `file` is the first uploaded file under the file field, when
present, represented by the outcome of loading its bytes as a zip
container (parse failure message, or the entry list). -/
structure DeployRequest where
  method : String
  fields : List (String × String)
  file : Option (Except String (List ZipEntry))

/-- Field lookup on the parsed mapping (property access on the fields
object): the value under the key, when present. -/
def getField (fields : List (String × String)) (key : String) : Option String :=
  (fields.find? fun p => p.1 = key).map Prod.snd

/-- JavaScript falsiness of a field value: absent, or the empty string. -/
def falsyStr (o : Option String) : Bool :=
  match o with
  | none => true
  | some s => decide (s = "")

/-- Model of the runtime error message raised by indexing into an absent
file-field array (src/index.js line 113 when no file was uploaded); the
exact wording of the runtime TypeError is immaterial and abridged here. -/
def typeErrorMessage : String := "Cannot read properties of undefined"

/-- src/index.js line 158: the catch-all turns any thrown error into a
500 response carrying the error message. -/
def deployErrorResponse (msg : String) : Response :=
  { status := 500, body := "Kesalahan deployment: " ++ msg }

/-- src/index.js lines 101-160: the deploy handler.  Rejects non-POST with
405; sanitizes the text fields; a falsy username or repoName yields 400;
with both truthy, indexing the absent file field throws, which the
catch-all surfaces as 500; a zip load failure is likewise surfaced as 500;
otherwise the extracted files are published sequentially, yielding the
fixed success response or the 500 carrying the first publish error.
Returns the response together with the observable event trace. -/
def handleDeployRequest (outcome : PublishCall → Except String Unit)
    (req : DeployRequest) : Response × List Event :=
  if req.method = "POST" then
    let sanitizedFields := sanitizeInput req.fields
    let username := getField sanitizedFields "username"
    let repoName := getField sanitizedFields "repoName"
    if falsyStr username then ({ status := 400, body := "Data tidak lengkap." }, [])
    else if falsyStr repoName then ({ status := 400, body := "Data tidak lengkap." }, [])
    else
      match req.file with
      | none => (deployErrorResponse typeErrorMessage, [])
      | some (Except.error msg) => (deployErrorResponse msg, [])
      | some (Except.ok entries) =>
        let p := publishLoop outcome (username.getD "") (repoName.getD "") (extractedFiles entries)
        match p.2 with
        | Except.ok _ =>
          ({ status := 200, body := "Proyek berhasil di-deploy!" }, Event.zipLoadOk entries :: p.1)
        | Except.error msg =>
          (deployErrorResponse msg, Event.zipLoadOk entries :: p.1)
  else ({ status := 405, body := "Metode tidak diizinkan" }, [])

/-! ## Specification predicates and concrete fixtures -/

/-- The output of the tag stripper relates to its input by deleting whole
pattern-matching segments and keeping every other character verbatim, in
order: the input splits into alternating kept runs and matched segments,
and the output is the concatenation of the kept runs. -/
def TagStripDecomp (inp out : List Char) : Prop :=
  ∃ parts : List (List Char × List Char), ∃ kfin : List Char,
    (∀ p ∈ parts, tagMatchAt p.2 = some (p.2, [])) ∧
    inp = (parts.map fun p => p.1 ++ p.2).flatten ++ kfin ∧
    out = (parts.map Prod.fst).flatten ++ kfin

/-- A remote API that accepts every call. -/
def okOracle : PublishCall → Except String Unit := fun _ => Except.ok ()

/-- A remote API that rejects the call for path dir/b.txt with a rate
limit message and accepts every other call. -/
def rateLimitOracle : PublishCall → Except String Unit := fun c =>
  if c.path = "dir/b.txt" then Except.error "rate limit hit" else Except.ok ()

/-- The end-to-end archive of the specification: a.txt with hello, an
empty directory record, and dir/b.txt with world. -/
def demoEntries : List ZipEntry :=
  [ { relativePath := "a.txt", dir := false, content := "hello" },
    { relativePath := "dir/", dir := true, content := "" },
    { relativePath := "dir/b.txt", dir := false, content := "world" } ]

/-- The end-to-end request of the specification. -/
def demoReq : DeployRequest :=
  { method := "POST"
    fields := [("username", "alice"), ("repoName", "demo")]
    file := some (Except.ok demoEntries) }

/-- A request with valid text fields but no uploaded file. -/
def reqMissingFile : DeployRequest :=
  { method := "POST"
    fields := [("username", "alice"), ("repoName", "demo")]
    file := none }

/-- A request whose uploaded blob is not a valid archive container. -/
def reqBadZip : DeployRequest :=
  { method := "POST"
    fields := [("username", "alice"), ("repoName", "demo")]
    file := some (Except.error "Corrupted zip or unexpected end of data") }

/-- An archive whose only file entry carries markup in its path and
content. -/
def tagEntries : List ZipEntry :=
  [ { relativePath := "<b>x</b>.txt", dir := false, content := "a<b>c</b>" } ]

/-- A request uploading the markup-laden archive. -/
def tagReq : DeployRequest :=
  { method := "POST"
    fields := [("username", "alice"), ("repoName", "demo")]
    file := some (Except.ok tagEntries) }

/-- An archive holding only a directory record and no file entry. -/
def dirOnlyEntries : List ZipEntry :=
  [ { relativePath := "dir/", dir := true, content := "" } ]

/-- A request uploading the archive with no file entries. -/
def dirOnlyReq : DeployRequest :=
  { method := "POST"
    fields := [("username", "alice"), ("repoName", "demo")]
    file := some (Except.ok dirOnlyEntries) }

/-- A field mapping whose values carry markup. -/
def sampleFields : List (String × String) :=
  [("username", "<b>hi</b>"), ("repoName", "a<b>c")]

/-! ## Matcher lemmas -/

/-- The consumed part and the remainder of the greedy run rebuild the
input. -/
theorem skipToGt_append : ∀ l : List Char, (skipToGt l).1 ++ (skipToGt l).2 = l := by
  intro l
  induction l with
  | nil => rfl
  | cons c rest ih =>
    by_cases h : c = '>'
    · simp [skipToGt, h]
    · simp [skipToGt, h]
      exact ih

/-- Rerunning the greedy run on its own consumed part consumes it fully. -/
theorem skipToGt_self : ∀ l : List Char, skipToGt (skipToGt l).1 = ((skipToGt l).1, []) := by
  intro l
  induction l with
  | nil => rfl
  | cons c rest ih =>
    by_cases h : c = '>'
    · simp [skipToGt, h]
    · simp [skipToGt, h, ih]

/-- Shape of a successful `matchPlus`. -/
theorem matchPlus_eq (l : List Char) (p : List Char × List Char)
    (h : matchPlus l = some p) :
    ∃ c rest, l = c :: rest ∧ c ≠ '>' ∧
      p = (c :: (skipToGt rest).1, (skipToGt rest).2) := by
  cases l with
  | nil => simp [matchPlus] at h
  | cons c rest =>
    by_cases hc : c = '>'
    · simp [matchPlus, hc] at h
    · refine ⟨c, rest, rfl, hc, ?_⟩
      simp [matchPlus, hc] at h
      exact h.symm

/-- The consumed part and the remainder of `matchPlus` rebuild the
input. -/
theorem matchPlus_append (l : List Char) (p : List Char × List Char)
    (h : matchPlus l = some p) : p.1 ++ p.2 = l := by
  obtain ⟨c, rest, rfl, hc, rfl⟩ := matchPlus_eq l p h
  simp [skipToGt_append]

/-- Rerunning `matchPlus` on its own consumed part consumes it fully. -/
theorem matchPlus_self (l : List Char) (p : List Char × List Char)
    (h : matchPlus l = some p) : matchPlus p.1 = some (p.1, []) := by
  obtain ⟨c, rest, rfl, hc, rfl⟩ := matchPlus_eq l p h
  simp [matchPlus, hc, skipToGt_self]

/-- The optional slash alternative never changes the overall remainder:
shape of a successful `matchAfterLt`. -/
theorem matchAfterLt_append (l : List Char) (p : List Char × List Char)
    (h : matchAfterLt l = some p) : p.1 ++ p.2 = l ∧ p.1 ≠ [] := by
  cases l with
  | nil => simp [matchAfterLt] at h
  | cons c rest =>
    by_cases hc : c = '/'
    · subst hc
      simp only [matchAfterLt] at h
      cases hmp : matchPlus rest with
      | some q =>
        rw [hmp] at h
        simp at h
        obtain ⟨c1, rest1, hrest, hc1, hq⟩ := matchPlus_eq rest q hmp
        constructor
        · rw [← h]
          simp
          exact matchPlus_append rest q hmp
        · rw [← h]
          simp
      | none =>
        rw [hmp] at h
        simp at h
        obtain ⟨c1, rest1, heq, hc1, hp⟩ := matchPlus_eq _ p h
        constructor
        · exact matchPlus_append _ p h
        · rw [hp]
          simp
    · simp only [matchAfterLt, if_neg hc] at h
      obtain ⟨c1, rest1, heq, hc1, hp⟩ := matchPlus_eq _ p h
      refine ⟨matchPlus_append _ p h, ?_⟩
      rw [hp]
      simp

/-- Rerunning the pattern after the `<` on its own consumed part consumes
it fully. -/
theorem matchAfterLt_self (l : List Char) (p : List Char × List Char)
    (h : matchAfterLt l = some p) : matchAfterLt p.1 = some (p.1, []) := by
  cases l with
  | nil => simp [matchAfterLt] at h
  | cons c rest =>
    by_cases hc : c = '/'
    · subst hc
      simp only [matchAfterLt] at h
      cases hmp : matchPlus rest with
      | some q =>
        rw [hmp] at h
        simp at h
        have hself := matchPlus_self rest q hmp
        rw [← h]
        simp [matchAfterLt, hself]
      | none =>
        rw [hmp] at h
        have hrest : rest = [] ∨ ∃ r, rest = '>' :: r := by
          cases rest with
          | nil => exact Or.inl rfl
          | cons d r =>
            by_cases hd : d = '>'
            · exact Or.inr ⟨r, by rw [hd]⟩
            · simp [matchPlus, hd] at hmp
        rcases hrest with hnil | ⟨r, hr⟩
        · subst hnil
          simp [matchPlus, skipToGt] at h
          rw [← h]
          simp [matchAfterLt, matchPlus, skipToGt]
        · subst hr
          simp [matchPlus, skipToGt] at h
          rw [← h]
          simp [matchAfterLt, matchPlus, skipToGt]
    · simp only [matchAfterLt, if_neg hc] at h
      obtain ⟨c1, rest1, heq, hc1, hp⟩ := matchPlus_eq _ p h
      have hself := matchPlus_self _ p h
      have hcc : c1 = c := by
        injection heq with h1 h2
        exact h1.symm
      have hne : p.1 = c :: (skipToGt rest1).1 := by
        rw [hp, hcc]
      rw [hne]
      simp only [matchAfterLt, if_neg hc]
      rw [← hne]
      exact hself

/-- Shape of a successful full match attempt. -/
theorem tagMatchAt_eq (l : List Char) (p : List Char × List Char)
    (h : tagMatchAt l = some p) :
    ∃ rest q, l = '<' :: rest ∧ matchAfterLt rest = some q ∧
      p = ('<' :: q.1, q.2) := by
  cases l with
  | nil => simp [tagMatchAt] at h
  | cons c rest =>
    by_cases hc : c = '<'
    · subst hc
      simp only [tagMatchAt, if_pos rfl] at h
      cases hma : matchAfterLt rest with
      | some q =>
        rw [hma] at h
        simp at h
        exact ⟨rest, q, rfl, hma, h.symm⟩
      | none => rw [hma] at h; simp at h
    · simp [tagMatchAt, hc] at h

/-- The matched segment and the remainder rebuild the input. -/
theorem tagMatchAt_append (l : List Char) (p : List Char × List Char)
    (h : tagMatchAt l = some p) : p.1 ++ p.2 = l := by
  obtain ⟨rest, q, rfl, hma, rfl⟩ := tagMatchAt_eq l p h
  simp
  exact (matchAfterLt_append rest q hma).1

/-- The matched segment is itself a full match of the pattern with nothing
left over: the match never depends on text beyond its own end. -/
theorem tagMatchAt_self (l : List Char) (p : List Char × List Char)
    (h : tagMatchAt l = some p) : tagMatchAt p.1 = some (p.1, []) := by
  obtain ⟨rest, q, rfl, hma, rfl⟩ := tagMatchAt_eq l p h
  have hself := matchAfterLt_self rest q hma
  simp [tagMatchAt, hself]

/-- The remainder after a match is strictly shorter than the input. -/
theorem tagMatchAt_length (l : List Char) (p : List Char × List Char)
    (h : tagMatchAt l = some p) : p.2.length < l.length := by
  obtain ⟨rest, q, rfl, hma, rfl⟩ := tagMatchAt_eq l p h
  have happ := (matchAfterLt_append rest q hma).1
  have : q.1.length + q.2.length = rest.length := by
    rw [← happ]; simp
  simp only [List.length_cons]
  omega

/-- The pattern after `<` fails exactly on an empty rest or a rest whose
first character is `>`. -/
theorem matchAfterLt_eq_none_iff (l : List Char) :
    matchAfterLt l = none ↔ l = [] ∨ ∃ r, l = '>' :: r := by
  cases l with
  | nil => simp [matchAfterLt]
  | cons c rest =>
    by_cases hc : c = '/'
    · subst hc
      simp only [matchAfterLt]
      constructor
      · intro h
        cases hmp : matchPlus rest with
        | some q => rw [hmp] at h; simp at h
        | none =>
          rw [hmp] at h
          simp [matchPlus, skipToGt] at h
      · intro h
        rcases h with h | ⟨r, hr⟩
        · exact absurd h (by simp)
        · simp at hr
    · simp only [matchAfterLt, if_neg hc]
      by_cases hg : c = '>'
      · subst hg
        simp [matchPlus]
      · simp [matchPlus, hg]

/-- Full characterization of a failing match attempt at a nonempty
position. -/
theorem tagMatchAt_cons_none_iff (c : Char) (rest : List Char) :
    tagMatchAt (c :: rest) = none ↔
      c ≠ '<' ∨ rest = [] ∨ ∃ r, rest = '>' :: r := by
  by_cases hc : c = '<'
  · subst hc
    simp only [tagMatchAt, if_pos rfl]
    cases hma : matchAfterLt rest with
    | some q =>
      simp
      constructor
      · intro hnil
        have hn : matchAfterLt rest = none :=
          (matchAfterLt_eq_none_iff rest).mpr (Or.inl hnil)
        rw [hn] at hma
        exact absurd hma (by simp)
      · intro x hx
        have hn : matchAfterLt rest = none :=
          (matchAfterLt_eq_none_iff rest).mpr (Or.inr ⟨x, hx⟩)
        rw [hn] at hma
        exact absurd hma (by simp)
    | none =>
      simp
      rw [← matchAfterLt_eq_none_iff, hma]
  · simp [tagMatchAt, hc]

/-- The fueled scanner does not depend on the fuel, as long as the fuel
covers the input length. -/
theorem stripTagsAux_congr :
    ∀ (f1 : Nat) (l : List Char) (f2 : Nat), l.length ≤ f1 → l.length ≤ f2 →
      stripTagsAux f1 l = stripTagsAux f2 l := by
  intro f1
  induction f1 with
  | zero =>
    intro l f2 h1 _
    have : l = [] := List.eq_nil_of_length_eq_zero (Nat.le_zero.mp h1)
    subst this
    cases f2 <;> rfl
  | succ n ih =>
    intro l f2 h1 h2
    cases l with
    | nil => cases f2 <;> rfl
    | cons c rest =>
      obtain ⟨m, rfl⟩ : ∃ m, f2 = m + 1 := by
        cases f2 with
        | zero => simp at h2
        | succ m => exact ⟨m, rfl⟩
      simp only [stripTagsAux]
      cases htm : tagMatchAt (c :: rest) with
      | some p =>
        have hlt := tagMatchAt_length _ p htm
        simp only [List.length_cons] at h1 h2 hlt
        exact ih p.2 m (by omega) (by omega)
      | none =>
        simp only [List.length_cons] at h1 h2
        rw [ih rest m (by omega) (by omega)]

/-- Scanner equation: empty input. -/
theorem stripTags_nil : stripTags [] = [] := rfl

/-- Scanner equation: at each position, a match drops the matched segment
and continues after it, otherwise the character is kept. -/
theorem stripTags_cons (c : Char) (rest : List Char) :
    stripTags (c :: rest) =
      match tagMatchAt (c :: rest) with
      | some p => stripTags p.2
      | none => c :: stripTags rest := by
  show stripTagsAux (rest.length + 1) (c :: rest) = _
  simp only [stripTagsAux]
  cases htm : tagMatchAt (c :: rest) with
  | some p =>
    have hlt := tagMatchAt_length _ p htm
    simp only [List.length_cons] at hlt
    exact stripTagsAux_congr rest.length p.2 p.2.length (by omega) (by omega)
  | none => rfl

/-- Structural induction principle following the scanner. -/
theorem stripRec (P : List Char → Prop) (h0 : P [])
    (h1 : ∀ c rest p, tagMatchAt (c :: rest) = some p → P p.2 → P (c :: rest))
    (h2 : ∀ c rest, tagMatchAt (c :: rest) = none → P rest → P (c :: rest)) :
    ∀ l, P l := by
  have key : ∀ (n : Nat) (l : List Char), l.length ≤ n → P l := by
    intro n
    induction n with
    | zero =>
      intro l h
      have : l = [] := List.eq_nil_of_length_eq_zero (Nat.le_zero.mp h)
      subst this
      exact h0
    | succ n ih =>
      intro l h
      cases l with
      | nil => exact h0
      | cons c rest =>
        cases htm : tagMatchAt (c :: rest) with
        | some p =>
          have hlt := tagMatchAt_length _ p htm
          simp only [List.length_cons] at h hlt
          exact h1 c rest p htm (ih p.2 (by omega))
        | none =>
          simp only [List.length_cons] at h
          exact h2 c rest htm (ih rest (by omega))
  exact fun l => key l.length l (Nat.le_refl _)

/-! ## Sanitizer output properties -/

/-- No position of the stripped output carries a pattern match: every
surviving `<` is immediately followed by `>` or ends the output, and the
pattern needs at least one character other than `>` after the `<`. -/
theorem hasTag_stripTags : ∀ l : List Char, hasTag (stripTags l) = false := by
  apply stripRec (P := fun l => hasTag (stripTags l) = false)
  · simp [stripTags_nil, hasTag]
  · intro c rest p htm ih
    rw [stripTags_cons, htm]
    exact ih
  · intro c rest htm ih
    rw [stripTags_cons, htm]
    have hcases := (tagMatchAt_cons_none_iff c rest).mp htm
    rcases hcases with hc | hnil | ⟨r, hr⟩
    · cases hs : stripTags rest with
      | nil => simp [hasTag, tagMatchAt, hc]
      | cons d out =>
        rw [hs] at ih
        simp only [hasTag, tagMatchAt, if_neg hc] at ih ⊢
        simpa using ih
    · subst hnil
      rw [stripTags_nil]
      simp [hasTag, tagMatchAt, matchAfterLt]
    · subst hr
      have hgt : tagMatchAt ('>' :: r) = none := by
        simp [tagMatchAt]
      rw [stripTags_cons, hgt] at ih ⊢
      simp only [hasTag] at ih ⊢
      have hnone : tagMatchAt (c :: '>' :: stripTags r) = none := by
        rw [tagMatchAt_cons_none_iff]
        exact Or.inr (Or.inr ⟨stripTags r, rfl⟩)
      rw [hnone]
      simpa using ih

/-- On input with no pattern match anywhere, the stripper is the
identity. -/
theorem stripTags_of_not_hasTag : ∀ l : List Char, hasTag l = false → stripTags l = l := by
  intro l
  induction l with
  | nil => intro _; rfl
  | cons c rest ih =>
    intro h
    simp only [hasTag, Bool.or_eq_false_iff] at h
    obtain ⟨h1, h2⟩ := h
    have htm : tagMatchAt (c :: rest) = none := by
      cases htm : tagMatchAt (c :: rest) with
      | some p => rw [htm] at h1; simp at h1
      | none => rfl
    rw [stripTags_cons, htm, ih h2]

/-- The global replacement is idempotent. -/
theorem stripTags_idem (l : List Char) : stripTags (stripTags l) = stripTags l :=
  stripTags_of_not_hasTag (stripTags l) (hasTag_stripTags l)

/-- The output is a sublist of the input: no character is ever altered or
reordered, only dropped. -/
theorem stripTags_sublist : ∀ l : List Char, (stripTags l).Sublist l := by
  apply stripRec (P := fun l => (stripTags l).Sublist l)
  · simp [stripTags_nil]
  · intro c rest p htm ih
    rw [stripTags_cons, htm]
    have happ := tagMatchAt_append _ p htm
    have h2 : p.2.Sublist (c :: rest) := by
      rw [← happ]
      exact List.sublist_append_right p.1 p.2
    exact ih.trans h2
  · intro c rest htm ih
    rw [stripTags_cons, htm]
    exact List.Sublist.cons₂ c ih

/-- The stripper deletes exactly whole pattern-matching segments and keeps
every other character verbatim, in order. -/
theorem stripTags_decomp : ∀ l : List Char, TagStripDecomp l (stripTags l) := by
  apply stripRec (P := fun l => TagStripDecomp l (stripTags l))
  · exact ⟨[], [], by simp, by simp, by simp [stripTags_nil]⟩
  · intro c rest p htm ih
    obtain ⟨parts, kfin, hseg, hin, hout⟩ := ih
    refine ⟨([], p.1) :: parts, kfin, ?_, ?_, ?_⟩
    · intro q hq
      rcases List.mem_cons.mp hq with h | h
      · simp only [h]
        exact tagMatchAt_self _ p htm
      · exact hseg q h
    · simp only [List.map_cons, List.flatten_cons, List.nil_append]
      rw [List.append_assoc, ← hin]
      exact (tagMatchAt_append _ p htm).symm
    · rw [stripTags_cons, htm]
      simpa using hout
  · intro c rest htm ih
    obtain ⟨parts, kfin, hseg, hin, hout⟩ := ih
    cases parts with
    | nil =>
      refine ⟨[], c :: kfin, by simp, ?_, ?_⟩
      · simp at hin
        simp [hin]
      · rw [stripTags_cons, htm]
        simp at hout
        simp [hout]
    | cons q ps =>
      refine ⟨(c :: q.1, q.2) :: ps, kfin, ?_, ?_, ?_⟩
      · intro w hw
        rcases List.mem_cons.mp hw with h | h
        · simp only [h]
          exact hseg q (by simp)
        · exact hseg w (List.mem_cons_of_mem q h)
      · simp only [List.map_cons, List.flatten_cons] at hin ⊢
        simp only [List.cons_append]
        rw [← hin]
      · rw [stripTags_cons, htm]
        simp only [List.map_cons, List.flatten_cons] at hout ⊢
        simp only [List.cons_append]
        rw [← hout]

/-! ## Publish loop and handler lemmas -/

/-- Trace of a fully successful publish loop: one issue/resolve pair per
entry, in order. -/
theorem publishLoop_all_ok (outcome : PublishCall → Except String Unit) (u r : String) :
    ∀ l : List ArchiveEntry,
      (∀ e ∈ l, outcome (mkPublishCall u r e) = Except.ok ()) →
      publishLoop outcome u r l =
        ((l.map fun e =>
          [Event.callIssued (mkPublishCall u r e),
           Event.callResolved (mkPublishCall u r e) (Except.ok ())]).flatten,
         Except.ok ()) := by
  intro l
  induction l with
  | nil => intro _; rfl
  | cons e rest ih =>
    intro h
    have he := h e (by simp)
    simp only [publishLoop, he, ih fun x hx => h x (List.mem_cons_of_mem e hx)]
    simp

/-- Trace of a publish loop whose first failure happens after the prefix
`pre`: the pairs for `pre`, then the issue and failed resolve of the
failing call, and nothing for the remaining entries. -/
theorem publishLoop_fail (outcome : PublishCall → Except String Unit) (u r : String)
    (e : ArchiveEntry) (msg : String) :
    ∀ pre post : List ArchiveEntry,
      (∀ x ∈ pre, outcome (mkPublishCall u r x) = Except.ok ()) →
      outcome (mkPublishCall u r e) = Except.error msg →
      publishLoop outcome u r (pre ++ e :: post) =
        ((pre.map fun x =>
          [Event.callIssued (mkPublishCall u r x),
           Event.callResolved (mkPublishCall u r x) (Except.ok ())]).flatten ++
          [Event.callIssued (mkPublishCall u r e),
           Event.callResolved (mkPublishCall u r e) (Except.error msg)],
         Except.error msg) := by
  intro pre
  induction pre with
  | nil =>
    intro post _ he
    simp only [List.nil_append, publishLoop, he]
    simp
  | cons x xs ih =>
    intro post h he
    have hx := h x (by simp)
    have ihh := ih post (fun y hy => h y (List.mem_cons_of_mem x hy)) he
    simp only [List.cons_append, publishLoop, hx, List.append_eq]
    rw [ihh]
    simp

/-- Issued calls distribute over trace concatenation. -/
theorem issuedCalls_append (a b : List Event) :
    issuedCalls (a ++ b) = issuedCalls a ++ issuedCalls b := by
  simp [issuedCalls]

/-- Issued calls of a list of issue/resolve pairs. -/
theorem issuedCalls_pairs (f : ArchiveEntry → PublishCall)
    (g : ArchiveEntry → Except String Unit) :
    ∀ l : List ArchiveEntry,
      issuedCalls ((l.map fun e =>
        [Event.callIssued (f e), Event.callResolved (f e) (g e)]).flatten) = l.map f := by
  intro l
  induction l with
  | nil => rfl
  | cons e rest ih =>
    simp only [List.map_cons, List.flatten_cons]
    rw [issuedCalls_append, ih]
    simp [issuedCalls]

/-- Successfully resolved calls of a list of successful pairs. -/
theorem resolvedOkCalls_pairs (f : ArchiveEntry → PublishCall) :
    ∀ l : List ArchiveEntry,
      resolvedOkCalls ((l.map fun e =>
        [Event.callIssued (f e), Event.callResolved (f e) (Except.ok ())]).flatten) = l.map f := by
  intro l
  induction l with
  | nil => rfl
  | cons e rest ih =>
    simp only [List.map_cons, List.flatten_cons]
    simp only [resolvedOkCalls] at ih ⊢
    simp [List.filterMap_append, ih]

/-- Every trace the publish loop produces is strictly alternating: each
call resolves before the next is issued. -/
theorem seqAlternating_publishLoop (outcome : PublishCall → Except String Unit)
    (u r : String) :
    ∀ l : List ArchiveEntry, seqAlternating (publishLoop outcome u r l).1 = true := by
  intro l
  induction l with
  | nil => rfl
  | cons e rest ih =>
    simp only [publishLoop]
    cases ho : outcome (mkPublishCall u r e) with
    | error msg => simp [seqAlternating]
    | ok _ => simp [seqAlternating, ih]

/-- Every call the publish loop issues is the call of one of its
entries. -/
theorem issuedCalls_publishLoop_mem (outcome : PublishCall → Except String Unit)
    (u r : String) :
    ∀ (l : List ArchiveEntry) (c : PublishCall),
      c ∈ issuedCalls (publishLoop outcome u r l).1 →
      ∃ e ∈ l, c = mkPublishCall u r e := by
  intro l
  induction l with
  | nil => intro c hc; simp [publishLoop, issuedCalls] at hc
  | cons e rest ih =>
    intro c hc
    simp only [publishLoop] at hc
    cases ho : outcome (mkPublishCall u r e) with
    | error msg =>
      rw [ho] at hc
      simp [issuedCalls] at hc
      exact ⟨e, by simp, hc⟩
    | ok v =>
      rw [ho] at hc
      simp only [issuedCalls, List.filterMap_cons] at hc
      simp only [issuedCalls] at ih
      rcases List.mem_cons.mp hc with h | h
      · exact ⟨e, by simp, h⟩
      · obtain ⟨x, hx, hcx⟩ := ih c h
        exact ⟨x, List.mem_cons_of_mem e hx, hcx⟩

/-- The extraction loop is filter-then-map: keep exactly the non-directory
records, turning each into an entry carrying its relative path and
content. -/
theorem extractedFiles_eq (entries : List ZipEntry) :
    extractedFiles entries =
      (entries.filter fun ze => !ze.dir).map
        fun ze => { path := ze.relativePath, content := ze.content } := by
  induction entries with
  | nil => rfl
  | cons ze rest ih =>
    by_cases h : ze.dir
    · simp [extractedFiles, List.filterMap_cons, h, List.filter_cons] at ih ⊢
      exact ih
    · simp [extractedFiles, List.filterMap_cons, h, List.filter_cons] at ih ⊢
      exact ih

/-- Membership in the extraction output comes exactly from non-directory
records. -/
theorem mem_extractedFiles (entries : List ZipEntry) (e : ArchiveEntry) :
    e ∈ extractedFiles entries ↔
      ∃ ze ∈ entries, ze.dir = false ∧
        e = { path := ze.relativePath, content := ze.content } := by
  simp only [extractedFiles, List.mem_filterMap]
  constructor
  · rintro ⟨ze, hze, hf⟩
    by_cases h : ze.dir
    · simp [h] at hf
    · simp [h] at hf
      exact ⟨ze, hze, by simp [h], hf.symm⟩
  · rintro ⟨ze, hze, hdir, rfl⟩
    exact ⟨ze, hze, by simp [hdir]⟩

/-- Run lemma: on a POST with truthy sanitized username and repoName and a
loadable archive, the handler decompresses and runs the publish loop, and
the response is determined by the loop outcome. -/
theorem handleDeployRequest_valid (outcome : PublishCall → Except String Unit)
    (req : DeployRequest) (u r : String) (entries : List ZipEntry)
    (hm : req.method = "POST")
    (hu : getField (sanitizeInput req.fields) "username" = some u) (hu2 : u ≠ "")
    (hr : getField (sanitizeInput req.fields) "repoName" = some r) (hr2 : r ≠ "")
    (hf : req.file = some (Except.ok entries)) :
    handleDeployRequest outcome req =
      ((match (publishLoop outcome u r (extractedFiles entries)).2 with
        | Except.ok _ => { status := 200, body := "Proyek berhasil di-deploy!" }
        | Except.error msg => deployErrorResponse msg),
       Event.zipLoadOk entries :: (publishLoop outcome u r (extractedFiles entries)).1) := by
  simp only [handleDeployRequest, hm, if_pos, hu, hr, hf, falsyStr]
  simp [hu2, hr2]
  cases hp : (publishLoop outcome u r (extractedFiles entries)).2 <;> simp [hp]

/-! ## Additional trace helper lemmas -/

/-- The decompression event contributes no issued call. -/
theorem issuedCalls_zipLoad (es : List ZipEntry) (t : List Event) :
    issuedCalls (Event.zipLoadOk es :: t) = issuedCalls t := by
  simp [issuedCalls]

/-- The decompression event contributes no resolved call. -/
theorem resolvedOkCalls_zipLoad (es : List ZipEntry) (t : List Event) :
    resolvedOkCalls (Event.zipLoadOk es :: t) = resolvedOkCalls t := by
  simp [resolvedOkCalls]

/-- Successfully resolved calls distribute over trace concatenation. -/
theorem resolvedOkCalls_append (a b : List Event) :
    resolvedOkCalls (a ++ b) = resolvedOkCalls a ++ resolvedOkCalls b := by
  simp [resolvedOkCalls]

/-- One sanitization pass of a value is already a fixed point of the
stripper. -/
theorem sanitizeStr_idem (s : String) : sanitizeStr (sanitizeStr s) = sanitizeStr s :=
  congrArg String.mk (stripTags_idem s.data)

/-! ## Claim theorems -/

/-- C2: for any valid archive, the archive reader yields exactly one entry
per non-directory record — the filtered list mapped to entries — so the
count equals the number of file records, each relative path is preserved
exactly, and directory records contribute nothing. -/
theorem archive_reader_exact (entries : List ZipEntry) :
    extractedFiles entries =
      (entries.filter fun ze => !ze.dir).map
        (fun ze => { path := ze.relativePath, content := ze.content }) ∧
    (extractedFiles entries).length = (entries.filter fun ze => !ze.dir).length ∧
    (extractedFiles entries).map ArchiveEntry.path =
      (entries.filter fun ze => !ze.dir).map ZipEntry.relativePath := by
  refine ⟨extractedFiles_eq entries, ?_, ?_⟩
  · rw [extractedFiles_eq]
    simp
  · rw [extractedFiles_eq]
    simp

/-- C9: the sanitizer is idempotent on field mappings. -/
theorem sanitizeInput_idempotent (fields : List (String × String)) :
    sanitizeInput (sanitizeInput fields) = sanitizeInput fields := by
  induction fields with
  | nil => rfl
  | cons p rest ih =>
    simp only [sanitizeInput, List.map_cons] at ih ⊢
    rw [sanitizeStr_idem]
    simp only [List.map_map] at ih ⊢
    rw [ih]

/-- C3: every value of the sanitized mapping carries no substring matching
the tag pattern at any position, and it arises from the corresponding raw
value by deleting exactly whole pattern-matching segments, all other
characters preserved verbatim and in order. -/
theorem sanitizer_output_tag_free (fields : List (String × String)) (k v : String)
    (h : (k, v) ∈ sanitizeInput fields) :
    hasTag v.data = false ∧
    ∃ v0 : String, (k, v0) ∈ fields ∧ v.data = stripTags v0.data ∧
      TagStripDecomp v0.data v.data := by
  simp only [sanitizeInput, List.mem_map] at h
  obtain ⟨p, hp, hpe⟩ := h
  have hk : p.1 = k := congrArg Prod.fst hpe
  have hv : sanitizeStr p.2 = v := congrArg Prod.snd hpe
  have hvdata : v.data = stripTags p.2.data := by rw [← hv]; rfl
  refine ⟨?_, p.2, ?_, hvdata, ?_⟩
  · rw [hvdata]
    exact hasTag_stripTags p.2.data
  · rw [← hk]
    simpa using hp
  · rw [hvdata]
    exact stripTags_decomp p.2.data

/-- Witness for C3 at a concrete markup-laden mapping. -/
theorem sanitizer_output_tag_free_witness :
    ("username", ("hi" : String)) ∈ sanitizeInput sampleFields ∧
    (hasTag ("hi" : String).data = false ∧
     ∃ v0 : String, ("username", v0) ∈ sampleFields ∧
       ("hi" : String).data = stripTags v0.data ∧
       TagStripDecomp v0.data ("hi" : String).data) :=
  ⟨by decide, sanitizer_output_tag_free sampleFields "username" "hi" (by decide)⟩

/-- C4 counterexample: a POST with truthy username and repoName but no
uploaded file is answered with status 500 (the thrown indexing error is
caught by the catch-all), not with the client error 400 the claim
states. -/
theorem missing_file_yields_500 :
    reqMissingFile.file = none ∧
    (handleDeployRequest okOracle reqMissingFile).1.status = 500 ∧
    ¬(handleDeployRequest okOracle reqMissingFile).1.status = 400 :=
  ⟨rfl, by decide, by decide⟩

/-- C4 amended: a falsy (absent or empty-after-sanitization) username or
repoName is rejected with 400 and an empty trace — no decompression and no
publish call; with both truthy but the uploaded file absent, the handler
answers 500 with the indexing-error message, again with an empty trace. -/
theorem validation_behavior (outcome : PublishCall → Except String Unit)
    (req : DeployRequest) (hm : req.method = "POST") :
    (falsyStr (getField (sanitizeInput req.fields) "username") = true ∨
     falsyStr (getField (sanitizeInput req.fields) "repoName") = true →
      handleDeployRequest outcome req =
        ({ status := 400, body := "Data tidak lengkap." }, [])) ∧
    (falsyStr (getField (sanitizeInput req.fields) "username") = false →
     falsyStr (getField (sanitizeInput req.fields) "repoName") = false →
     req.file = none →
      handleDeployRequest outcome req = (deployErrorResponse typeErrorMessage, [])) := by
  constructor
  · intro h
    by_cases h1 : falsyStr (getField (sanitizeInput req.fields) "username") = true
    · simp [handleDeployRequest, hm, h1]
    · have h2 : falsyStr (getField (sanitizeInput req.fields) "repoName") = true := by
        rcases h with h | h
        · exact absurd h h1
        · exact h
      simp [handleDeployRequest, hm, h1, h2]
  · intro h1 h2 h3
    simp [handleDeployRequest, hm, h1, h2, h3]

/-- Witness for the amended C4 at the concrete request with no uploaded
file. -/
theorem validation_behavior_witness :
    reqMissingFile.method = "POST" ∧
    ((falsyStr (getField (sanitizeInput reqMissingFile.fields) "username") = true ∨
      falsyStr (getField (sanitizeInput reqMissingFile.fields) "repoName") = true →
       handleDeployRequest okOracle reqMissingFile =
         ({ status := 400, body := "Data tidak lengkap." }, [])) ∧
     (falsyStr (getField (sanitizeInput reqMissingFile.fields) "username") = false →
      falsyStr (getField (sanitizeInput reqMissingFile.fields) "repoName") = false →
      reqMissingFile.file = none →
       handleDeployRequest okOracle reqMissingFile =
         (deployErrorResponse typeErrorMessage, []))) :=
  ⟨rfl, validation_behavior okOracle reqMissingFile rfl⟩

/-- C5 counterexample: an invalid archive is answered with status 500,
which is not in the client-error range the claim states; no publish call
is made. -/
theorem bad_archive_not_4xx :
    (handleDeployRequest okOracle reqBadZip).1.status = 500 ∧
    ¬(400 ≤ (handleDeployRequest okOracle reqBadZip).1.status ∧
      (handleDeployRequest okOracle reqBadZip).1.status < 500) ∧
    issuedCalls (handleDeployRequest okOracle reqBadZip).2 = [] := by
  refine ⟨by decide, by decide, by decide⟩

/-- C5 amended: on a valid POST whose blob fails to load as an archive,
the handler surfaces the load error message with status 500 and an empty
trace: zero remote publish calls. -/
theorem archive_error_surfaced_500 (outcome : PublishCall → Except String Unit)
    (req : DeployRequest) (msg u r : String)
    (hm : req.method = "POST")
    (hu : getField (sanitizeInput req.fields) "username" = some u) (hu2 : u ≠ "")
    (hr : getField (sanitizeInput req.fields) "repoName" = some r) (hr2 : r ≠ "")
    (hf : req.file = some (Except.error msg)) :
    handleDeployRequest outcome req = (deployErrorResponse msg, []) ∧
    issuedCalls (handleDeployRequest outcome req).2 = [] := by
  have heq : handleDeployRequest outcome req = (deployErrorResponse msg, []) := by
    simp [handleDeployRequest, hm, hu, hr, hf, falsyStr, hu2, hr2]
  exact ⟨heq, by rw [heq]; rfl⟩

/-- Witness for the amended C5 at the concrete corrupted upload. -/
theorem archive_error_surfaced_500_witness :
    reqBadZip.method = "POST" ∧
    getField (sanitizeInput reqBadZip.fields) "username" = some "alice" ∧
    getField (sanitizeInput reqBadZip.fields) "repoName" = some "demo" ∧
    reqBadZip.file = some (Except.error "Corrupted zip or unexpected end of data") ∧
    (handleDeployRequest okOracle reqBadZip =
      (deployErrorResponse "Corrupted zip or unexpected end of data", []) ∧
     issuedCalls (handleDeployRequest okOracle reqBadZip).2 = []) :=
  ⟨rfl, by decide, by decide, rfl,
   archive_error_surfaced_500 okOracle reqBadZip
     "Corrupted zip or unexpected end of data" "alice" "demo"
     rfl (by decide) (by decide) (by decide) (by decide) rfl⟩

/-- C10: on a valid POST whose archive holds no file entry, the handler
issues zero publish calls and answers the fixed success message with
status 200. -/
theorem empty_archive_success (outcome : PublishCall → Except String Unit)
    (req : DeployRequest) (u r : String) (entries : List ZipEntry)
    (hm : req.method = "POST")
    (hu : getField (sanitizeInput req.fields) "username" = some u) (hu2 : u ≠ "")
    (hr : getField (sanitizeInput req.fields) "repoName" = some r) (hr2 : r ≠ "")
    (hf : req.file = some (Except.ok entries))
    (hempty : extractedFiles entries = []) :
    handleDeployRequest outcome req =
      ({ status := 200, body := "Proyek berhasil di-deploy!" }, [Event.zipLoadOk entries]) ∧
    issuedCalls (handleDeployRequest outcome req).2 = [] := by
  have hrun := handleDeployRequest_valid outcome req u r entries hm hu hu2 hr hr2 hf
  rw [hempty] at hrun
  have heq : handleDeployRequest outcome req =
      ({ status := 200, body := "Proyek berhasil di-deploy!" }, [Event.zipLoadOk entries]) := by
    rw [hrun]
    rfl
  exact ⟨heq, by rw [heq]; rfl⟩

/-- Witness for C10 at the archive holding only a directory record. -/
theorem empty_archive_success_witness :
    dirOnlyReq.method = "POST" ∧
    getField (sanitizeInput dirOnlyReq.fields) "username" = some "alice" ∧
    getField (sanitizeInput dirOnlyReq.fields) "repoName" = some "demo" ∧
    dirOnlyReq.file = some (Except.ok dirOnlyEntries) ∧
    extractedFiles dirOnlyEntries = [] ∧
    (handleDeployRequest okOracle dirOnlyReq =
      ({ status := 200, body := "Proyek berhasil di-deploy!" },
       [Event.zipLoadOk dirOnlyEntries]) ∧
     issuedCalls (handleDeployRequest okOracle dirOnlyReq).2 = []) :=
  ⟨rfl, by decide, by decide, rfl, by decide,
   empty_archive_success okOracle dirOnlyReq "alice" "demo" dirOnlyEntries
     rfl (by decide) (by decide) (by decide) (by decide) rfl (by decide)⟩

/-- For any oracle, the loop trace is exactly the issue-then-resolve pair
of each entry of some prefix of its input, in input order, each resolve
carrying that call's oracle result. -/
theorem publishLoop_trace (outcome : PublishCall → Except String Unit) (u r : String) :
    ∀ l : List ArchiveEntry, ∃ done rest : List ArchiveEntry,
      l = done ++ rest ∧
      (publishLoop outcome u r l).1 =
        (done.map fun e =>
          [Event.callIssued (mkPublishCall u r e),
           Event.callResolved (mkPublishCall u r e)
             (outcome (mkPublishCall u r e))]).flatten := by
  intro l
  induction l with
  | nil => exact ⟨[], [], rfl, rfl⟩
  | cons e l' ih =>
    cases ho : outcome (mkPublishCall u r e) with
    | error msg =>
      refine ⟨[e], l', rfl, ?_⟩
      simp [publishLoop, ho]
    | ok v =>
      obtain ⟨done, rest, hsplit, htrace⟩ := ih
      refine ⟨e :: done, rest, by rw [hsplit]; rfl, ?_⟩
      simp only [publishLoop, ho, List.map_cons, List.flatten_cons]
      rw [htrace]
      rfl

/-- C6: on a valid POST with a loadable archive, the trace opens with the
completed-decompression event — so no entry is published before the whole
archive is decompressed — and the publish events are exactly the
issue-then-resolve pairs of the calls for a prefix of the reader output,
adjacent and in the reader's iteration order: entry N+1's call is only
issued after entry N's call has resolved, and no permuted order is
possible. -/
theorem publish_sequential_after_extraction (outcome : PublishCall → Except String Unit)
    (req : DeployRequest) (u r : String) (entries : List ZipEntry)
    (hm : req.method = "POST")
    (hu : getField (sanitizeInput req.fields) "username" = some u) (hu2 : u ≠ "")
    (hr : getField (sanitizeInput req.fields) "repoName" = some r) (hr2 : r ≠ "")
    (hf : req.file = some (Except.ok entries)) :
    ∃ done rest : List ArchiveEntry,
      extractedFiles entries = done ++ rest ∧
      (handleDeployRequest outcome req).2 =
        Event.zipLoadOk entries ::
          (done.map fun e =>
            [Event.callIssued (mkPublishCall u r e),
             Event.callResolved (mkPublishCall u r e)
               (outcome (mkPublishCall u r e))]).flatten ∧
      seqAlternating
        ((done.map fun e =>
          [Event.callIssued (mkPublishCall u r e),
           Event.callResolved (mkPublishCall u r e)
             (outcome (mkPublishCall u r e))]).flatten) = true := by
  have hrun := handleDeployRequest_valid outcome req u r entries hm hu hu2 hr hr2 hf
  obtain ⟨done, rest, hsplit, htrace⟩ :=
    publishLoop_trace outcome u r (extractedFiles entries)
  refine ⟨done, rest, hsplit, ?_, ?_⟩
  · rw [hrun, htrace]
  · rw [← htrace]
    exact seqAlternating_publishLoop outcome u r (extractedFiles entries)

/-- Witness for C6 at the end-to-end request. -/
theorem publish_sequential_after_extraction_witness :
    demoReq.method = "POST" ∧
    getField (sanitizeInput demoReq.fields) "username" = some "alice" ∧
    getField (sanitizeInput demoReq.fields) "repoName" = some "demo" ∧
    demoReq.file = some (Except.ok demoEntries) ∧
    (∃ done rest : List ArchiveEntry,
      extractedFiles demoEntries = done ++ rest ∧
      (handleDeployRequest okOracle demoReq).2 =
        Event.zipLoadOk demoEntries ::
          (done.map fun e =>
            [Event.callIssued (mkPublishCall "alice" "demo" e),
             Event.callResolved (mkPublishCall "alice" "demo" e)
               (okOracle (mkPublishCall "alice" "demo" e))]).flatten ∧
      seqAlternating
        ((done.map fun e =>
          [Event.callIssued (mkPublishCall "alice" "demo" e),
           Event.callResolved (mkPublishCall "alice" "demo" e)
             (okOracle (mkPublishCall "alice" "demo" e))]).flatten) = true) :=
  ⟨rfl, by decide, by decide, rfl,
   publish_sequential_after_extraction okOracle demoReq "alice" "demo" demoEntries
     rfl (by decide) (by decide) (by decide) (by decide) rfl⟩

/-- C7: on a valid POST whose publish calls all succeed, the handler
answers the fixed confirmation with status 200, issues exactly one call
per extracted entry in order, and every call carries the entry path, the
commit message naming that path, the base64 of the entry content, and the
fixed bot committer and author identity. -/
theorem publish_call_shape_and_success (outcome : PublishCall → Except String Unit)
    (req : DeployRequest) (u r : String) (entries : List ZipEntry)
    (hm : req.method = "POST")
    (hu : getField (sanitizeInput req.fields) "username" = some u) (hu2 : u ≠ "")
    (hr : getField (sanitizeInput req.fields) "repoName" = some r) (hr2 : r ≠ "")
    (hf : req.file = some (Except.ok entries))
    (hok : ∀ e ∈ extractedFiles entries, outcome (mkPublishCall u r e) = Except.ok ()) :
    handleDeployRequest outcome req =
      ({ status := 200, body := "Proyek berhasil di-deploy!" },
       Event.zipLoadOk entries ::
         ((extractedFiles entries).map fun e =>
           [Event.callIssued (mkPublishCall u r e),
            Event.callResolved (mkPublishCall u r e) (Except.ok ())]).flatten) ∧
    issuedCalls (handleDeployRequest outcome req).2 =
      (extractedFiles entries).map (mkPublishCall u r) ∧
    ∀ e : ArchiveEntry,
      (mkPublishCall u r e).path = e.path ∧
      (mkPublishCall u r e).message = "Menambahkan file " ++ e.path ++ " via PaongDev" ∧
      (mkPublishCall u r e).content = base64EncodeStr e.content ∧
      (mkPublishCall u r e).committerName = "PaongDev" ∧
      (mkPublishCall u r e).committerEmail = "paongdev@example.com" ∧
      (mkPublishCall u r e).authorName = "PaongDev" ∧
      (mkPublishCall u r e).authorEmail = "paongdev@example.com" := by
  have hrun := handleDeployRequest_valid outcome req u r entries hm hu hu2 hr hr2 hf
  rw [publishLoop_all_ok outcome u r (extractedFiles entries) hok] at hrun
  have heq : handleDeployRequest outcome req =
      ({ status := 200, body := "Proyek berhasil di-deploy!" },
       Event.zipLoadOk entries ::
         ((extractedFiles entries).map fun e =>
           [Event.callIssued (mkPublishCall u r e),
            Event.callResolved (mkPublishCall u r e) (Except.ok ())]).flatten) := by
    rw [hrun]
  refine ⟨heq, ?_, ?_⟩
  · rw [heq]
    show issuedCalls (Event.zipLoadOk entries :: _) = _
    rw [issuedCalls_zipLoad]
    exact issuedCalls_pairs (mkPublishCall u r) (fun _ => Except.ok ()) (extractedFiles entries)
  · intro e
    exact ⟨rfl, rfl, rfl, rfl, rfl, rfl, rfl⟩

/-- Witness for C7: the end-to-end scenario of the specification, two file
entries and one directory record, all calls succeeding. -/
theorem publish_call_shape_and_success_witness :
    demoReq.method = "POST" ∧
    getField (sanitizeInput demoReq.fields) "username" = some "alice" ∧
    getField (sanitizeInput demoReq.fields) "repoName" = some "demo" ∧
    demoReq.file = some (Except.ok demoEntries) ∧
    (∀ e ∈ extractedFiles demoEntries,
      okOracle (mkPublishCall "alice" "demo" e) = Except.ok ()) ∧
    (handleDeployRequest okOracle demoReq =
      ({ status := 200, body := "Proyek berhasil di-deploy!" },
       Event.zipLoadOk demoEntries ::
         ((extractedFiles demoEntries).map fun e =>
           [Event.callIssued (mkPublishCall "alice" "demo" e),
            Event.callResolved (mkPublishCall "alice" "demo" e) (Except.ok ())]).flatten) ∧
     issuedCalls (handleDeployRequest okOracle demoReq).2 =
       (extractedFiles demoEntries).map (mkPublishCall "alice" "demo") ∧
     ∀ e : ArchiveEntry,
       (mkPublishCall "alice" "demo" e).path = e.path ∧
       (mkPublishCall "alice" "demo" e).message =
         "Menambahkan file " ++ e.path ++ " via PaongDev" ∧
       (mkPublishCall "alice" "demo" e).content = base64EncodeStr e.content ∧
       (mkPublishCall "alice" "demo" e).committerName = "PaongDev" ∧
       (mkPublishCall "alice" "demo" e).committerEmail = "paongdev@example.com" ∧
       (mkPublishCall "alice" "demo" e).authorName = "PaongDev" ∧
       (mkPublishCall "alice" "demo" e).authorEmail = "paongdev@example.com") :=
  ⟨rfl, by decide, by decide, rfl, by decide,
   publish_call_shape_and_success okOracle demoReq "alice" "demo" demoEntries
     rfl (by decide) (by decide) (by decide) (by decide) rfl (by decide)⟩

/-- C8: sanitization touches only the text fields; every call the handler
issues takes its path and content verbatim from a non-directory archive
record — the path unmodified and the content transformed only by base64
encoding — while the owner and repository come from the sanitized
fields. -/
theorem entries_forwarded_unsanitized (outcome : PublishCall → Except String Unit)
    (req : DeployRequest) (u r : String) (entries : List ZipEntry)
    (hm : req.method = "POST")
    (hu : getField (sanitizeInput req.fields) "username" = some u) (hu2 : u ≠ "")
    (hr : getField (sanitizeInput req.fields) "repoName" = some r) (hr2 : r ≠ "")
    (hf : req.file = some (Except.ok entries)) :
    ∀ c ∈ issuedCalls (handleDeployRequest outcome req).2,
      ∃ ze ∈ entries, ze.dir = false ∧
        c.path = ze.relativePath ∧
        c.content = base64EncodeStr ze.content ∧
        c.owner = u ∧ c.repo = r := by
  intro c hc
  have hrun := handleDeployRequest_valid outcome req u r entries hm hu hu2 hr hr2 hf
  have htr : (handleDeployRequest outcome req).2 =
      Event.zipLoadOk entries :: (publishLoop outcome u r (extractedFiles entries)).1 := by
    rw [hrun]
  rw [htr, issuedCalls_zipLoad] at hc
  obtain ⟨e, he, hce⟩ := issuedCalls_publishLoop_mem outcome u r (extractedFiles entries) c hc
  obtain ⟨ze, hze, hdir, hee⟩ := (mem_extractedFiles entries e).mp he
  subst hce
  subst hee
  exact ⟨ze, hze, hdir, rfl, rfl, rfl, rfl⟩

/-- Witness for C8 at an archive whose file entry carries markup in both
path and content: the issued call keeps them verbatim. -/
theorem entries_forwarded_unsanitized_witness :
    tagReq.method = "POST" ∧
    getField (sanitizeInput tagReq.fields) "username" = some "alice" ∧
    getField (sanitizeInput tagReq.fields) "repoName" = some "demo" ∧
    tagReq.file = some (Except.ok tagEntries) ∧
    (∀ c ∈ issuedCalls (handleDeployRequest okOracle tagReq).2,
      ∃ ze ∈ tagEntries, ze.dir = false ∧
        c.path = ze.relativePath ∧
        c.content = base64EncodeStr ze.content ∧
        c.owner = "alice" ∧ c.repo = "demo") :=
  ⟨rfl, by decide, by decide, rfl,
   entries_forwarded_unsanitized okOracle tagReq "alice" "demo" tagEntries
     rfl (by decide) (by decide) (by decide) (by decide) rfl⟩

/-- C1: if the sanitized fields are valid, the archive splits the reader
output as pre, the failing entry, post, every call for pre succeeds and
the call for the failing entry errors, then the handler issues exactly the
calls for pre and the failing entry in order (the calls for post are never
issued), the calls for pre have all resolved successfully before the
failure (and no event after the failed resolve exists, so nothing is
rolled back), and the response carries the triggering error message with
status 500. -/
theorem publish_failure_aborts_and_surfaces (outcome : PublishCall → Except String Unit)
    (req : DeployRequest) (u r : String) (entries : List ZipEntry)
    (pre post : List ArchiveEntry) (e : ArchiveEntry) (msg : String)
    (hm : req.method = "POST")
    (hu : getField (sanitizeInput req.fields) "username" = some u) (hu2 : u ≠ "")
    (hr : getField (sanitizeInput req.fields) "repoName" = some r) (hr2 : r ≠ "")
    (hf : req.file = some (Except.ok entries))
    (hsplit : extractedFiles entries = pre ++ e :: post)
    (hpre : ∀ x ∈ pre, outcome (mkPublishCall u r x) = Except.ok ())
    (he : outcome (mkPublishCall u r e) = Except.error msg) :
    handleDeployRequest outcome req =
      (deployErrorResponse msg,
       Event.zipLoadOk entries ::
         ((pre.map fun x =>
            [Event.callIssued (mkPublishCall u r x),
             Event.callResolved (mkPublishCall u r x) (Except.ok ())]).flatten ++
          [Event.callIssued (mkPublishCall u r e),
           Event.callResolved (mkPublishCall u r e) (Except.error msg)])) ∧
    issuedCalls (handleDeployRequest outcome req).2 =
      (pre ++ [e]).map (mkPublishCall u r) ∧
    resolvedOkCalls (handleDeployRequest outcome req).2 =
      pre.map (mkPublishCall u r) := by
  have hrun := handleDeployRequest_valid outcome req u r entries hm hu hu2 hr hr2 hf
  rw [hsplit, publishLoop_fail outcome u r e msg pre post hpre he] at hrun
  have heq : handleDeployRequest outcome req =
      (deployErrorResponse msg,
       Event.zipLoadOk entries ::
         ((pre.map fun x =>
            [Event.callIssued (mkPublishCall u r x),
             Event.callResolved (mkPublishCall u r x) (Except.ok ())]).flatten ++
          [Event.callIssued (mkPublishCall u r e),
           Event.callResolved (mkPublishCall u r e) (Except.error msg)])) := by
    rw [hrun]
  refine ⟨heq, ?_, ?_⟩
  · rw [heq]
    show issuedCalls (Event.zipLoadOk entries :: _) = _
    rw [issuedCalls_zipLoad, issuedCalls_append,
      issuedCalls_pairs (mkPublishCall u r) (fun _ => Except.ok ()) pre]
    simp [issuedCalls]
  · rw [heq]
    show resolvedOkCalls (Event.zipLoadOk entries :: _) = _
    rw [resolvedOkCalls_zipLoad, resolvedOkCalls_append,
      resolvedOkCalls_pairs (mkPublishCall u r) pre]
    simp [resolvedOkCalls]

/-- Witness for C1: the end-to-end archive with the remote API failing on
the second call. -/
theorem publish_failure_aborts_and_surfaces_witness :
    demoReq.method = "POST" ∧
    getField (sanitizeInput demoReq.fields) "username" = some "alice" ∧
    getField (sanitizeInput demoReq.fields) "repoName" = some "demo" ∧
    demoReq.file = some (Except.ok demoEntries) ∧
    extractedFiles demoEntries =
      [{ path := "a.txt", content := "hello" }] ++
        { path := "dir/b.txt", content := "world" } :: [] ∧
    (∀ x ∈ [({ path := "a.txt", content := "hello" } : ArchiveEntry)],
      rateLimitOracle (mkPublishCall "alice" "demo" x) = Except.ok ()) ∧
    rateLimitOracle
        (mkPublishCall "alice" "demo" { path := "dir/b.txt", content := "world" }) =
      Except.error "rate limit hit" ∧
    (handleDeployRequest rateLimitOracle demoReq =
      (deployErrorResponse "rate limit hit",
       Event.zipLoadOk demoEntries ::
         (([({ path := "a.txt", content := "hello" } : ArchiveEntry)].map fun x =>
            [Event.callIssued (mkPublishCall "alice" "demo" x),
             Event.callResolved (mkPublishCall "alice" "demo" x) (Except.ok ())]).flatten ++
          [Event.callIssued
             (mkPublishCall "alice" "demo" { path := "dir/b.txt", content := "world" }),
           Event.callResolved
             (mkPublishCall "alice" "demo" { path := "dir/b.txt", content := "world" })
             (Except.error "rate limit hit")])) ∧
     issuedCalls (handleDeployRequest rateLimitOracle demoReq).2 =
       ([({ path := "a.txt", content := "hello" } : ArchiveEntry)] ++
         [({ path := "dir/b.txt", content := "world" } : ArchiveEntry)]).map
         (mkPublishCall "alice" "demo") ∧
     resolvedOkCalls (handleDeployRequest rateLimitOracle demoReq).2 =
       [({ path := "a.txt", content := "hello" } : ArchiveEntry)].map
         (mkPublishCall "alice" "demo")) :=
  ⟨rfl, by decide, by decide, rfl, by decide, by decide, by decide,
   publish_failure_aborts_and_surfaces rateLimitOracle demoReq "alice" "demo" demoEntries
     ([{ path := "a.txt", content := "hello" }] : List ArchiveEntry) []
     ({ path := "dir/b.txt", content := "world" } : ArchiveEntry) "rate limit hit"
     rfl (by decide) (by decide) (by decide) (by decide) rfl
     (by decide) (by decide) (by decide)⟩
